import Mathlib

/-!
Shallow embedding of `hledger-get-market-prices` (src/src/lib.rs), centred on
the `get_history_for_stock` pipeline: format the fetched closing prices, build
a date-keyed map, check the API returned no duplicate days, parse the existing
journal file, merge the two maps (fetched data wins), sort by date descending
and emit the rewritten file contents.

Modelling conventions:
* Rust `HashMap<String, String>` is embedded as an association list with
  distinct keys maintained by an insert-with-overwrite operation; the only
  operations the program uses are `collect`/`insert`/`extend`/`len` and a
  final drain-and-sort, none of which depend on the hash iteration order
  once the final sort has run.
* Closing prices (`f64` values deserialized from the API's decimal strings)
  are embedded as non-negative decimal numbers `mantissa / 10 ^ scale`; the
  spec's data model calls them decimal numbers, and the formatting logic the
  claims are about (digit counts, separator substitution, composition) only
  depends on the rendered decimal digit string.
* Rust `String` comparison (`str::cmp`, lexicographic on UTF-8 bytes, which
  coincides with lexicographic comparison of Unicode scalar values) is
  embedded as `charsLe` / `charsLt` on `List Char`.
* The fatal `report_application_bug` / `process::exit` paths are embedded as
  `Except` error results: an `.error` outcome means the process terminated
  before the journal file was reopened for writing, so on `.error` no output
  lines exist.
-/

namespace HledgerGetMarketPrices

/-- The decimal digit character for `d < 10` (so `digitChar 4 = '4'`). -/
def digitChar (d : Nat) : Char := Char.ofNat (48 + d)

/-- Fuel-driven rendering of a natural number as its decimal digit string,
most significant digit first (the standard rendering Rust's integer
`Display` produces). -/
def natDigitsAux : Nat → Nat → List Char
  | 0, _ => []
  | fuel + 1, n =>
    if n < 10 then [digitChar n]
    else natDigitsAux fuel (n / 10) ++ [digitChar (n % 10)]

/-- Decimal digit string of a natural number. -/
def natToChars (n : Nat) : List Char := natDigitsAux (n + 1) n

/-- The last `d` decimal digits of `m`, most significant first and
zero-padded to exactly `d` characters (the fractional part rendered by
Rust's fixed-precision float formatting). -/
def lastDigits (m : Nat) : Nat → List Char
  | 0 => []
  | d + 1 => lastDigits (m / 10) d ++ [digitChar (m % 10)]

/-- A closing price as returned by the API: the non-negative decimal number
`mantissa / 10 ^ scale`. -/
structure Price where
  mantissa : Nat
  scale : Nat
deriving DecidableEq

/-- Remove trailing zero fractional digits: the minimal decimal
representation `format!("{price}")` uses. -/
def stripScale : Nat → Nat → Nat × Nat
  | m, 0 => (m, 0)
  | m, s + 1 => if m % 10 = 0 then stripScale (m / 10) s else (m, s + 1)

/-- Round `num / den` to the nearest integer, ties to even (the rounding
Rust's float formatting applies when truncating decimal digits). -/
def roundHalfEven (num den : Nat) : Nat :=
  let q := num / den
  let r := num % den
  if den < 2 * r then q + 1
  else if 2 * r < den then q
  else if q % 2 = 0 then q else q + 1

/-- Rescale the mantissa of `m / 10 ^ s` to `d` fractional digits. -/
def roundToScale (m s d : Nat) : Nat :=
  if s ≤ d then m * 10 ^ (d - s) else roundHalfEven m (10 ^ (s - d))

/-- `format!("{price}")`: natural/minimal decimal representation, with no
decimal point at all when the fractional part is zero. -/
def format_natural (p : Price) : List Char :=
  let ms := stripScale p.mantissa p.scale
  if ms.2 = 0 then natToChars ms.1
  else natToChars (ms.1 / 10 ^ ms.2) ++ '.' :: lastDigits ms.1 ms.2

/-- `format!("{price:.d$}")`: exactly `d` digits after the decimal point,
and no decimal point at all when `d = 0`. -/
def format_fixed (p : Price) (d : Nat) : List Char :=
  let r := roundToScale p.mantissa p.scale d
  if d = 0 then natToChars r
  else natToChars (r / 10 ^ d) ++ '.' :: lastDigits r d

/-- The `price_string` of lib.rs lines 109–116: render the price (fixed
precision when `decimal_digits` is given, natural representation otherwise),
then, if the configured separator differs from `'.'`, replace every `'.'`
by the separator character. -/
def price_string (p : Price) (decimal_digits : Option Nat) (separator : Char) :
    List Char :=
  let rendered := match decimal_digits with
    | none => format_natural p
    | some d => format_fixed p d
  if separator ≠ '.' then
    rendered.map (fun c => if c = '.' then separator else c)
  else rendered

/-- The value string stored behind a date, lib.rs lines 118–122:
`"{stock_name} {currency_commodity_name}{price_string}"` when the currency
symbol goes before the amount, else
`"{stock_name} {price_string} {currency_commodity_name}"`. -/
def formatEntryValue (stock_name currency_commodity_name : String) (p : Price)
    (decimal_digits : Option Nat) (separator : Char)
    (currency_symbol_before : Bool) : String :=
  let ps : String := ⟨price_string p decimal_digits separator⟩
  if currency_symbol_before then
    stock_name ++ " " ++ currency_commodity_name ++ ps
  else
    stock_name ++ " " ++ ps ++ " " ++ currency_commodity_name

/-- Embedding of `HashMap<String, String>` as an association list with
distinct keys. -/
abbrev HMap := List (String × String)

/-- `HashMap::insert`: the new entry replaces any existing entry with the
same key. -/
def hmInsert (m : HMap) (k v : String) : HMap :=
  (k, v) :: m.filter (fun p => decide (p.1 ≠ k))

/-- The keys of the map. -/
def hmKeys (m : HMap) : List String := m.map Prod.fst

/-- `HashMap::get`. -/
def hmLookup (m : HMap) (k : String) : Option String :=
  (m.find? (fun p => decide (p.1 = k))).map Prod.snd

/-- `HashMap::extend`: insert every pair of `l` in order, overwriting
existing entries with the same key. -/
def hmExtend (m : HMap) (l : List (String × String)) : HMap :=
  l.foldl (fun acc kv => hmInsert acc kv.1 kv.2) m

/-- `collect::<HashMap<_, _>>()`: repeated insertion into the empty map, so
for duplicate keys the later pair wins. -/
def hmOfList (l : List (String × String)) : HMap := hmExtend [] l

/-- The `api_data` map of lib.rs lines 103–125: one entry per fetched
`(date, close)` pair, keyed by the date string, holding the formatted value
string. -/
def api_data (stockTimesData : List (String × Price))
    (stock_name currency_commodity_name : String) (separator : Char)
    (decimal_digits : Option Nat) (currency_symbol_before : Bool) : HMap :=
  hmOfList (stockTimesData.map (fun dataForDay =>
    (dataForDay.1,
      formatEntryValue stock_name currency_commodity_name dataForDay.2
        decimal_digits separator currency_symbol_before)))

/-- Rust `str::trim_start` (leading-whitespace removal) on a line. -/
def trimStart (s : String) : String := ⟨s.data.dropWhile Char.isWhitespace⟩

/-- Rust `str::starts_with(';')`, the comment-line test. -/
def startsWithSemicolon (s : String) : Bool := s.data.head? = some ';'

/-- Rust `str::split_once(' ')` on the character list of a string: split at
the first space, `none` when the string contains no space. -/
def splitOnce : List Char → Option (List Char × List Char)
  | [] => none
  | c :: cs =>
    if c = ' ' then some ([], cs)
    else (splitOnce cs).map (fun p => (c :: p.1, p.2))

/-- The fatal journal-file parse errors of lib.rs lines 150–165, each
carrying the offending (already trimmed) line. -/
inductive JournalParseError where
  | noSpace (line : String)
  | notMarketPrice (line : String)
  | onlyOneSpace (line : String)
deriving DecidableEq

/-- Parse one non-comment, trimmed journal line, lib.rs lines 150–167:
split at the first space, require the keyword `P`, split the remainder at
its first space into date and price info. -/
def parseDirective (line : String) : Except JournalParseError (String × String) :=
  match splitOnce line.data with
  | none => .error (.noSpace line)
  | some (first_part, last_part) =>
    if first_part ≠ ['P'] then .error (.notMarketPrice line)
    else
      match splitOnce last_part with
      | none => .error (.onlyOneSpace line)
      | some (date, price_info) => .ok (⟨date⟩, ⟨price_info⟩)

/-- Parse a list of trimmed non-comment lines in order, stopping at the
first fatal error (the Rust closure exits the process at the first bad
line). -/
def parseAller : List String → Except JournalParseError (List (String × String))
  | [] => .ok []
  | l :: ls =>
    match parseDirective l with
    | .error e => .error e
    | .ok p =>
      match parseAller ls with
      | .error e => .error e
      | .ok ps => .ok (p :: ps)

/-- The journal reader, lib.rs lines 140–168: trim each line's leading
whitespace, drop comment lines beginning with `;`, parse every remaining
line as a price directive. -/
def parseJournalLines (lines : List String) :
    Except JournalParseError (List (String × String)) :=
  parseAller (((lines.map trimStart).filter (fun l => !startsWithSemicolon l)))

/-- The `(date, price_info)` pairs of the well-formed directive lines of a
journal file, comments skipped (used to speak about the parsed content of a
file fragment whose lines are all well formed). -/
def parsedPairs (lines : List String) : List (String × String) :=
  ((lines.map trimStart).filter (fun l => !startsWithSemicolon l)).filterMap
    (fun l => (parseDirective l).toOption)

/-- A line is acceptable to the reader: either a comment after trimming, or
a line that parses as a price directive. -/
def lineOkB (l : String) : Bool :=
  startsWithSemicolon (trimStart l) || (parseDirective (trimStart l)).toBool

/-- Lexicographic (Rust `str::cmp`) less-or-equal on character lists. -/
def charsLe : List Char → List Char → Bool
  | [], _ => true
  | _ :: _, [] => false
  | a :: as, b :: bs =>
    if a.toNat < b.toNat then true
    else if b.toNat < a.toNat then false
    else charsLe as bs

/-- Lexicographic (Rust `str::cmp`) strict less-than on character lists. -/
def charsLt : List Char → List Char → Bool
  | [], [] => false
  | [], _ :: _ => true
  | _ :: _, [] => false
  | a :: as, b :: bs =>
    if a.toNat < b.toNat then true
    else if b.toNat < a.toNat then false
    else charsLt as bs

/-- The sort relation of lib.rs line 174,
`sort_by(|(a, _), (b, _)| a.cmp(b).reverse())`: entry `x` may precede
entry `y` when `y`'s date is lexicographically at most `x`'s date. -/
def keyGe (x y : String × String) : Prop := charsLe y.1.data x.1.data = true

instance : DecidableRel keyGe := fun x y => by
  unfold keyGe
  infer_instance

/-- A price directive line, `P <date> <price info>` (lib.rs line 186). -/
def mkDirective (date price_info : String) : String :=
  "P " ++ date ++ " " ++ price_info

/-- Modelled from the spec: the generated-by comment header
`; Generated by <tool> V<version>` written at the top of the rewritten file
(lib.rs lines 179–184). The crate name and version come from the Cargo
manifest, which is not part of the sources; the claims do not depend on the
exact text beyond it being a single comment line. -/
def headerLine : String := "; Generated by hledger-get-market-prices V0.1.0"

/-- The fatal outcomes of a `history` run (each is a
`report_application_bug` followed by `process::exit(1)` in lib.rs). -/
inductive RunError where
  | duplicateDays (apiResponseCount mapCount : Nat)
  | journal (e : JournalParseError)
deriving DecidableEq

/-- The `history` pipeline, lib.rs lines 72–189, starting after the network
fetch: `stockTimesData` is the fetcher's `(date, close)` sequence and
`journalLines` the lines of the existing journal file.  On success the
result is the full list of lines written to the rewritten journal file; an
error is a fatal termination before the file is reopened for writing. -/
def get_history_for_stock (stockTimesData : List (String × Price))
    (journalLines : List String)
    (stock_commodity_name currency_commodity_name : String) (separator : Char)
    (decimal_digits : Option Nat) (currency_symbol_before : Bool) :
    Except RunError (List String) :=
  let apiData := api_data stockTimesData stock_commodity_name
    currency_commodity_name separator decimal_digits currency_symbol_before
  if stockTimesData.length ≠ apiData.length then
    .error (.duplicateDays stockTimesData.length apiData.length)
  else
    match parseJournalLines journalLines with
    | .error e => .error (.journal e)
    | .ok filePairs =>
      let new_data := hmExtend (hmOfList filePairs) apiData
      let sorted := new_data.insertionSort keyGe
      .ok (headerLine :: sorted.map (fun kv => mkDirective kv.1 kv.2))

/-! ### Basic helper lemmas -/

theorem string_ext {s t : String} (h : s.data = t.data) : s = t := by
  cases s
  cases t
  exact congrArg String.mk h

theorem char_toNat_inj {a b : Char} (h : a.toNat = b.toNat) : a = b := by
  apply Char.ext
  exact UInt32.toNat.inj h

theorem digitChar_spec {d : Nat} (hd : d < 10) :
    (digitChar d).isDigit = true ∧ digitChar d ≠ '.' := by
  interval_cases d <;> exact ⟨by decide, by decide⟩

theorem natDigitsAux_mem {fuel n : Nat} {c : Char} (hc : c ∈ natDigitsAux fuel n) :
    ∃ d, d < 10 ∧ c = digitChar d := by
  induction fuel generalizing n with
  | zero => simp [natDigitsAux] at hc
  | succ fuel ih =>
    unfold natDigitsAux at hc
    by_cases h : n < 10
    · rw [if_pos h] at hc
      simp only [List.mem_singleton] at hc
      exact ⟨n, h, hc⟩
    · rw [if_neg h] at hc
      rcases List.mem_append.mp hc with h1 | h1
      · exact ih h1
      · simp only [List.mem_singleton] at h1
        exact ⟨n % 10, Nat.mod_lt _ (by omega), h1⟩

theorem natToChars_mem {n : Nat} {c : Char} (hc : c ∈ natToChars n) :
    ∃ d, d < 10 ∧ c = digitChar d := natDigitsAux_mem hc

theorem lastDigits_length (m d : Nat) : (lastDigits m d).length = d := by
  induction d generalizing m with
  | zero => rfl
  | succ d ih => simp [lastDigits, ih]

theorem lastDigits_mem {m d : Nat} {c : Char} (hc : c ∈ lastDigits m d) :
    ∃ e, e < 10 ∧ c = digitChar e := by
  induction d generalizing m with
  | zero => simp [lastDigits] at hc
  | succ d ih =>
    unfold lastDigits at hc
    rcases List.mem_append.mp hc with h1 | h1
    · exact ih h1
    · simp only [List.mem_singleton] at h1
      exact ⟨m % 10, Nat.mod_lt _ (by omega), h1⟩

/-! ### HMap lemmas -/

theorem map_fst_filter_ne (m : HMap) (k : String) :
    hmKeys (m.filter (fun p => decide (p.1 ≠ k))) =
      (hmKeys m).filter (fun s => decide (s ≠ k)) := by
  induction m with
  | nil => rfl
  | cons a m ih =>
    by_cases h : a.1 = k <;>
      simp [hmKeys, List.filter_cons, h] at * <;> exact ih

theorem hmKeys_hmInsert (m : HMap) (k v : String) :
    hmKeys (hmInsert m k v) = k :: (hmKeys m).filter (fun s => decide (s ≠ k)) := by
  unfold hmInsert
  show k :: hmKeys (m.filter _) = _
  rw [map_fst_filter_ne]

theorem mem_hmKeys_hmInsert {m : HMap} {k v k' : String} :
    k' ∈ hmKeys (hmInsert m k v) ↔ k' = k ∨ k' ∈ hmKeys m := by
  rw [hmKeys_hmInsert]
  simp only [List.mem_cons, List.mem_filter, decide_eq_true_eq]
  by_cases h : k' = k <;> simp [h]

theorem nodup_hmKeys_hmInsert {m : HMap} (k v : String)
    (h : (hmKeys m).Nodup) : (hmKeys (hmInsert m k v)).Nodup := by
  rw [hmKeys_hmInsert]
  refine List.nodup_cons.mpr ⟨?_, h.filter _⟩
  simp [List.mem_filter]

theorem filter_ne_of_not_mem {m : HMap} {k : String} (h : k ∉ hmKeys m) :
    m.filter (fun p => decide (p.1 ≠ k)) = m := by
  apply List.filter_eq_self.mpr
  intro p hp
  simp only [decide_eq_true_eq]
  intro hpk
  exact h (hpk ▸ List.mem_map_of_mem Prod.fst hp)

theorem length_hmInsert_of_not_mem {m : HMap} {k : String} (v : String)
    (h : k ∉ hmKeys m) : (hmInsert m k v).length = m.length + 1 := by
  unfold hmInsert
  rw [filter_ne_of_not_mem h]
  rfl

theorem length_filter_ne_of_mem {m : HMap} {k : String}
    (hnd : (hmKeys m).Nodup) (h : k ∈ hmKeys m) :
    (m.filter (fun p => decide (p.1 ≠ k))).length + 1 = m.length := by
  induction m with
  | nil => simp [hmKeys] at h
  | cons a m ih =>
    rcases List.nodup_cons.mp hnd with ⟨ha, hm⟩
    by_cases hak : a.1 = k
    · rw [List.filter_cons_of_neg (by simp [hak])]
      rw [filter_ne_of_not_mem (hak ▸ ha)]
      rfl
    · rcases (List.mem_cons.mp h) with h1 | h1
      · exact absurd h1.symm hak
      · rw [List.filter_cons_of_pos (by simp [hak])]
        simpa using ih hm h1

theorem length_hmInsert_of_mem {m : HMap} {k : String} (v : String)
    (hnd : (hmKeys m).Nodup) (h : k ∈ hmKeys m) :
    (hmInsert m k v).length = m.length := by
  show (m.filter _).length + 1 = m.length
  exact length_filter_ne_of_mem hnd h

theorem hmLookup_hmInsert_self (m : HMap) (k v : String) :
    hmLookup (hmInsert m k v) k = some v := by
  simp [hmLookup, hmInsert, List.find?]

theorem hmLookup_hmInsert_ne {m : HMap} {k v k' : String} (h : k' ≠ k) :
    hmLookup (hmInsert m k v) k' = hmLookup m k' := by
  unfold hmLookup hmInsert
  rw [List.find?_cons_of_neg _ (by simpa using fun hkk => absurd hkk.symm h)]
  congr 1
  induction m with
  | nil => rfl
  | cons a m ih =>
    by_cases hak : a.1 = k
    · rw [List.filter_cons_of_neg (by simp [hak])]
      rw [List.find?_cons_of_neg _ (by simp [hak]; exact fun hkk => h hkk.symm)]
      · exact ih
    · rw [List.filter_cons_of_pos (by simp [hak])]
      by_cases hq : a.1 = k'
      · rw [List.find?_cons_of_pos _ (by simp [hq]), List.find?_cons_of_pos _ (by simp [hq])]
      · rw [List.find?_cons_of_neg _ (by simp [hq]), List.find?_cons_of_neg _ (by simp [hq])]
        exact ih

theorem hmExtend_nil (m : HMap) : hmExtend m [] = m := rfl

theorem hmExtend_cons (m : HMap) (kv : String × String) (l : List (String × String)) :
    hmExtend m (kv :: l) = hmExtend (hmInsert m kv.1 kv.2) l := rfl

theorem hmExtend_append (m : HMap) (l₁ l₂ : List (String × String)) :
    hmExtend m (l₁ ++ l₂) = hmExtend (hmExtend m l₁) l₂ :=
  List.foldl_append _ _ _ _

theorem mem_hmKeys_hmExtend {m : HMap} {l : List (String × String)} {k : String} :
    k ∈ hmKeys (hmExtend m l) ↔ k ∈ hmKeys m ∨ k ∈ l.map Prod.fst := by
  induction l generalizing m with
  | nil => simp [hmExtend_nil]
  | cons kv l ih =>
    rw [hmExtend_cons, ih]
    simp only [mem_hmKeys_hmInsert, List.map_cons, List.mem_cons]
    tauto

theorem nodup_hmKeys_hmExtend {m : HMap} {l : List (String × String)}
    (h : (hmKeys m).Nodup) : (hmKeys (hmExtend m l)).Nodup := by
  induction l generalizing m with
  | nil => exact h
  | cons kv l ih => exact ih (nodup_hmKeys_hmInsert _ _ h)

theorem nodup_hmKeys_hmOfList (l : List (String × String)) :
    (hmKeys (hmOfList l)).Nodup :=
  nodup_hmKeys_hmExtend List.nodup_nil

theorem mem_hmKeys_hmOfList {l : List (String × String)} {k : String} :
    k ∈ hmKeys (hmOfList l) ↔ k ∈ l.map Prod.fst := by
  rw [hmOfList, mem_hmKeys_hmExtend]
  simp [hmKeys]

theorem hmLookup_hmExtend_of_not_mem {m : HMap} {l : List (String × String)}
    {k : String} (h : k ∉ l.map Prod.fst) :
    hmLookup (hmExtend m l) k = hmLookup m k := by
  induction l generalizing m with
  | nil => rfl
  | cons kv l ih =>
    simp only [List.map_cons, List.mem_cons, not_or] at h
    rw [hmExtend_cons, ih h.2, hmLookup_hmInsert_ne h.1]

theorem hmLookup_hmExtend_of_nodup {m : HMap} {l : List (String × String)}
    {k : String} (hnd : (l.map Prod.fst).Nodup) (hk : k ∈ l.map Prod.fst) :
    hmLookup (hmExtend m l) k = hmLookup l k := by
  induction l generalizing m with
  | nil => simp at hk
  | cons kv l ih =>
    simp only [List.map_cons] at hnd
    rcases List.nodup_cons.mp hnd with ⟨hh, ht⟩
    by_cases hkk : k = kv.1
    · rw [hmExtend_cons, hmLookup_hmExtend_of_not_mem (hkk ▸ hh)]
      rw [hkk, hmLookup_hmInsert_self]
      unfold hmLookup
      rw [List.find?_cons_of_pos _ (by simp)]
      rfl
    · simp only [List.map_cons, List.mem_cons] at hk
      rcases hk with hk | hk
      · exact absurd hk hkk
      · rw [hmExtend_cons, ih ht hk]
        unfold hmLookup
        rw [List.find?_cons_of_neg _ (by simpa using fun hh2 => absurd hh2.symm hkk)]

theorem hmLookup_hmExtend_last {m : HMap} {A B : List (String × String)}
    {k v : String} (h : k ∉ B.map Prod.fst) :
    hmLookup (hmExtend m (A ++ (k, v) :: B)) k = some v := by
  rw [hmExtend_append, hmExtend_cons, hmLookup_hmExtend_of_not_mem h,
    hmLookup_hmInsert_self]

theorem length_hmExtend_le (m : HMap) (l : List (String × String)) :
    (hmExtend m l).length ≤ m.length + l.length := by
  induction l generalizing m with
  | nil => simp [hmExtend_nil]
  | cons kv l ih =>
    rw [hmExtend_cons]
    calc (hmExtend (hmInsert m kv.1 kv.2) l).length
        ≤ (hmInsert m kv.1 kv.2).length + l.length := ih _
      _ ≤ (m.length + 1) + l.length := by
          have : (hmInsert m kv.1 kv.2).length ≤ m.length + 1 := by
            unfold hmInsert
            simpa using Nat.succ_le_succ (List.length_filter_le _ m)
          omega
      _ = m.length + (l.length + 1) := by omega
      _ = m.length + (kv :: l).length := by simp

theorem length_hmExtend_of_disjoint {m : HMap} {l : List (String × String)}
    (hm : (hmKeys m).Nodup) (hl : (l.map Prod.fst).Nodup)
    (hdisj : ∀ k ∈ l.map Prod.fst, k ∉ hmKeys m) :
    (hmExtend m l).length = m.length + l.length := by
  induction l generalizing m with
  | nil => simp [hmExtend_nil]
  | cons kv l ih =>
    simp only [List.map_cons] at hl
    rcases List.nodup_cons.mp hl with ⟨hh, ht⟩
    have hkm : kv.1 ∉ hmKeys m := hdisj kv.1 (by simp)
    rw [hmExtend_cons]
    have ihr := ih (m := hmInsert m kv.1 kv.2) (nodup_hmKeys_hmInsert _ _ hm) ht ?_
    · rw [ihr, length_hmInsert_of_not_mem _ hkm]
      simp
      omega
    · intro k hk
      rw [mem_hmKeys_hmInsert]
      push_neg
      refine ⟨fun hkk => hh (hkk ▸ hk), hdisj k (by simp [hk])⟩

theorem length_hmExtend_lt {m : HMap} {l : List (String × String)}
    (hm : (hmKeys m).Nodup)
    (h : ¬((l.map Prod.fst).Nodup ∧ ∀ k ∈ l.map Prod.fst, k ∉ hmKeys m)) :
    (hmExtend m l).length < m.length + l.length := by
  induction l generalizing m with
  | nil => exact absurd ⟨List.nodup_nil, by simp⟩ h
  | cons kv l ih =>
    rw [hmExtend_cons]
    by_cases hkm : kv.1 ∈ hmKeys m
    · calc (hmExtend (hmInsert m kv.1 kv.2) l).length
          ≤ (hmInsert m kv.1 kv.2).length + l.length := length_hmExtend_le _ _
        _ = m.length + l.length := by rw [length_hmInsert_of_mem _ hm hkm]
        _ < m.length + (kv :: l).length := by simp
    · have hnext : ¬((l.map Prod.fst).Nodup ∧
          ∀ k ∈ l.map Prod.fst, k ∉ hmKeys (hmInsert m kv.1 kv.2)) := by
        rintro ⟨hnd, hdj⟩
        apply h
        constructor
        · simp only [List.map_cons, List.nodup_cons]
          refine ⟨fun hmem => ?_, hnd⟩
          · exact (hdj kv.1 hmem) (mem_hmKeys_hmInsert.mpr (Or.inl rfl))
        · intro k hk
          simp only [List.map_cons, List.mem_cons] at hk
          rcases hk with hk | hk
          · exact hk ▸ hkm
          · intro hkmem
            exact hdj k hk (mem_hmKeys_hmInsert.mpr (Or.inr hkmem))
      calc (hmExtend (hmInsert m kv.1 kv.2) l).length
          < (hmInsert m kv.1 kv.2).length + l.length :=
            ih (nodup_hmKeys_hmInsert _ _ hm) hnext
        _ = (m.length + 1) + l.length := by rw [length_hmInsert_of_not_mem _ hkm]
        _ = m.length + (kv :: l).length := by simp; omega

theorem length_hmOfList_eq_iff (l : List (String × String)) :
    (hmOfList l).length = l.length ↔ (l.map Prod.fst).Nodup := by
  constructor
  · intro h
    by_contra hnd
    have := length_hmExtend_lt (m := []) (l := l) List.nodup_nil
      (fun hc => hnd hc.1)
    rw [hmOfList] at h
    simp at this
    omega
  · intro hnd
    have := length_hmExtend_of_disjoint (m := []) List.nodup_nil hnd
      (fun k _ hk => by simp [hmKeys] at hk)
    simpa [hmOfList] using this

/-! ### Reader lemmas -/

theorem splitOnce_eq_none_iff {cs : List Char} : splitOnce cs = none ↔ ' ' ∉ cs := by
  induction cs with
  | nil => simp [splitOnce]
  | cons c cs ih =>
    by_cases hc : c = ' '
    · simp [splitOnce, hc]
    · simp only [splitOnce, if_neg hc, Option.map_eq_none', ih, List.mem_cons, not_or]
      constructor
      · intro h
        exact ⟨fun h1 => hc h1.symm, h⟩
      · exact And.right

theorem splitOnce_append {a : List Char} (b : List Char) (h : ' ' ∉ a) :
    splitOnce (a ++ ' ' :: b) = some (a, b) := by
  induction a with
  | nil => simp [splitOnce]
  | cons c cs ih =>
    simp only [List.mem_cons, not_or] at h
    simp only [List.cons_append, splitOnce]
    rw [if_neg (fun hc => h.1 hc.symm)]
    have hcs := ih h.2
    rw [show cs.append (' ' :: b) = cs ++ ' ' :: b from rfl, hcs]
    rfl

theorem mkDirective_data (date price_info : String) :
    (mkDirective date price_info).data =
      'P' :: ' ' :: (date.data ++ ' ' :: price_info.data) := by
  simp [mkDirective, String.data_append]

theorem trimStart_mkDirective (date price_info : String) :
    trimStart (mkDirective date price_info) = mkDirective date price_info := by
  apply string_ext
  show (mkDirective date price_info).data.dropWhile Char.isWhitespace = _
  rw [mkDirective_data, List.dropWhile_cons_of_neg (by decide)]

theorem startsWithSemicolon_mkDirective (date price_info : String) :
    startsWithSemicolon (mkDirective date price_info) = false := by
  unfold startsWithSemicolon
  rw [mkDirective_data]
  rfl

theorem parseDirective_mkDirective {date : String} (price_info : String)
    (h : ' ' ∉ date.data) :
    parseDirective (mkDirective date price_info) = .ok (date, price_info) := by
  have h1 : splitOnce ((mkDirective date price_info).data) =
      some (['P'], date.data ++ ' ' :: price_info.data) := by
    rw [mkDirective_data]
    simp [splitOnce]
  have h2 : splitOnce (date.data ++ ' ' :: price_info.data) =
      some (date.data, price_info.data) := splitOnce_append _ h
  simp only [parseDirective, h1, h2, ne_eq, not_true_eq_false, if_false]

theorem trimStart_eq_empty {s : String}
    (h : ∀ c ∈ s.data, c.isWhitespace = true) : trimStart s = "" := by
  apply string_ext
  show s.data.dropWhile Char.isWhitespace = ("" : String).data
  rw [List.dropWhile_eq_nil_iff.mpr h]

theorem parseAller_ok_forall {ls : List String} {ps : List (String × String)}
    (h : parseAller ls = .ok ps) :
    ∀ l ∈ ls, ∃ p, parseDirective l = .ok p := by
  induction ls generalizing ps with
  | nil => simp
  | cons l ls ih =>
    intro x hx
    unfold parseAller at h
    rcases h1 : parseDirective l with e | p
    · rw [h1] at h
      exact absurd h (by simp)
    · rw [h1] at h
      rcases h2 : parseAller ls with e | ps'
      · rw [h2] at h
        exact absurd h (by simp)
      · rcases List.mem_cons.mp hx with hx | hx
        · exact ⟨p, hx ▸ h1⟩
        · exact ih h2 x hx

theorem parseAller_of_forall {ls : List String}
    (h : ∀ l ∈ ls, ∃ p, parseDirective l = .ok p) :
    parseAller ls = .ok (ls.filterMap (fun l => (parseDirective l).toOption)) := by
  induction ls with
  | nil => rfl
  | cons l ls ih =>
    rcases h l (by simp) with ⟨p, hp⟩
    unfold parseAller
    rw [hp, ih (fun x hx => h x (by simp [hx]))]
    simp [List.filterMap_cons, hp, Except.toOption]

theorem parseAller_error_of_bad {ls : List String} {l : String} (hl : l ∈ ls)
    (hbad : ∀ p, parseDirective l ≠ .ok p) :
    ∃ e, parseAller ls = .error e := by
  rcases h : parseAller ls with e | ps
  · exact ⟨e, rfl⟩
  · rcases parseAller_ok_forall h l hl with ⟨p, hp⟩
    exact absurd hp (hbad p)

theorem parseJournalLines_of_all_ok {lines : List String}
    (h : ∀ l ∈ lines, lineOkB l = true) :
    parseJournalLines lines = .ok (parsedPairs lines) := by
  unfold parseJournalLines parsedPairs
  apply parseAller_of_forall
  intro l hl
  rcases List.mem_filter.mp hl with ⟨hmem, hnc⟩
  rcases List.mem_map.mp hmem with ⟨l₀, hl₀, rfl⟩
  have := h l₀ hl₀
  unfold lineOkB at this
  rw [Bool.or_eq_true] at this
  rcases this with hc | hok
  · rw [hc] at hnc
    exact absurd hnc (by simp)
  · rcases h2 : parseDirective (trimStart l₀) with e | p
    · rw [h2] at hok
      exact absurd hok (by simp [Except.toBool])
    · exact ⟨p, rfl⟩

/-! ### Lexicographic order lemmas -/

theorem charsLe_cons (a b : Char) (as bs : List Char) :
    charsLe (a :: as) (b :: bs) =
      if a.toNat < b.toNat then true
      else if b.toNat < a.toNat then false
      else charsLe as bs := rfl

theorem charsLt_cons (a b : Char) (as bs : List Char) :
    charsLt (a :: as) (b :: bs) =
      if a.toNat < b.toNat then true
      else if b.toNat < a.toNat then false
      else charsLt as bs := rfl

theorem charsLe_total : ∀ x y : List Char, charsLe x y = true ∨ charsLe y x = true
  | [], _ => Or.inl rfl
  | _ :: _, [] => Or.inr rfl
  | a :: as, b :: bs => by
    rcases Nat.lt_trichotomy a.toNat b.toNat with h | h | h
    · left
      rw [charsLe_cons, if_pos h]
    · have hab : a = b := char_toNat_inj h
      subst hab
      rcases charsLe_total as bs with h1 | h1
      · left
        rw [charsLe_cons, if_neg (by omega), if_neg (by omega)]
        exact h1
      · right
        rw [charsLe_cons, if_neg (by omega), if_neg (by omega)]
        exact h1
    · right
      rw [charsLe_cons, if_pos h]

theorem charsLe_trans : ∀ x y z : List Char,
    charsLe x y = true → charsLe y z = true → charsLe x z = true
  | [], _, _, _, _ => rfl
  | _ :: _, [], _, h1, _ => by simp [charsLe] at h1
  | _ :: _, _ :: _, [], _, h2 => by simp [charsLe] at h2
  | a :: as, b :: bs, c :: cs, h1, h2 => by
    rw [charsLe_cons] at h1 h2 ⊢
    by_cases hab : a.toNat < b.toNat
    · by_cases hbc : b.toNat < c.toNat
      · rw [if_pos (Nat.lt_trans hab hbc)]
      · by_cases hcb : c.toNat < b.toNat
        · rw [if_neg hbc, if_pos hcb] at h2
          simp at h2
        · rw [if_pos (by omega : a.toNat < c.toNat)]
    · by_cases hba : b.toNat < a.toNat
      · rw [if_neg hab, if_pos hba] at h1
        simp at h1
      · by_cases hbc : b.toNat < c.toNat
        · rw [if_pos (by omega : a.toNat < c.toNat)]
        · by_cases hcb : c.toNat < b.toNat
          · rw [if_neg hbc, if_pos hcb] at h2
            simp at h2
          · rw [if_neg hab, if_neg hba] at h1
            rw [if_neg hbc, if_neg hcb] at h2
            rw [if_neg (by omega : ¬a.toNat < c.toNat),
              if_neg (by omega : ¬c.toNat < a.toNat)]
            exact charsLe_trans as bs cs h1 h2

theorem charsLt_of_le_of_ne : ∀ x y : List Char,
    charsLe x y = true → x ≠ y → charsLt x y = true
  | [], [], _, hne => absurd rfl hne
  | [], _ :: _, _, _ => rfl
  | _ :: _, [], h, _ => by simp [charsLe] at h
  | a :: as, b :: bs, h, hne => by
    rw [charsLe_cons] at h
    rw [charsLt_cons]
    by_cases hab : a.toNat < b.toNat
    · rw [if_pos hab]
    · by_cases hba : b.toNat < a.toNat
      · rw [if_neg hab, if_pos hba] at h
        simp at h
      · have heq : a = b := char_toNat_inj (by omega)
        subst heq
        rw [if_neg hab, if_neg hba] at h ⊢
        have htail : as ≠ bs := fun he => hne (by rw [he])
        exact charsLt_of_le_of_ne as bs h htail

theorem insertionSort_sorted_keyGe (l : HMap) :
    List.Sorted keyGe (l.insertionSort keyGe) := by
  haveI : IsTotal (String × String) keyGe := ⟨fun x y => by
    unfold keyGe
    exact charsLe_total y.1.data x.1.data⟩
  haveI : IsTrans (String × String) keyGe := ⟨fun x y z hxy hyz =>
    charsLe_trans z.1.data y.1.data x.1.data hyz hxy⟩
  exact List.sorted_insertionSort keyGe l

/-! ### api_data and pipeline helper lemmas -/

theorem api_data_map_fst (stockTimesData : List (String × Price))
    (sn cn : String) (sep : Char) (dd : Option Nat) (before : Bool) :
    ((stockTimesData.map (fun dataForDay =>
        (dataForDay.1, formatEntryValue sn cn dataForDay.2 dd sep before))).map
      Prod.fst) = stockTimesData.map Prod.fst := by
  rw [List.map_map]
  rfl

theorem mem_hmKeys_api_data {stockTimesData : List (String × Price)}
    {sn cn : String} {sep : Char} {dd : Option Nat} {before : Bool} {k : String} :
    k ∈ hmKeys (api_data stockTimesData sn cn sep dd before) ↔
      k ∈ stockTimesData.map Prod.fst := by
  unfold api_data
  rw [mem_hmKeys_hmOfList, api_data_map_fst]

theorem api_data_length_eq_iff (stockTimesData : List (String × Price))
    (sn cn : String) (sep : Char) (dd : Option Nat) (before : Bool) :
    (api_data stockTimesData sn cn sep dd before).length = stockTimesData.length ↔
      (stockTimesData.map Prod.fst).Nodup := by
  unfold api_data
  rw [show stockTimesData.length = (stockTimesData.map (fun dataForDay =>
    (dataForDay.1, formatEntryValue sn cn dataForDay.2 dd sep before))).length from
    (List.length_map _ _).symm]
  rw [length_hmOfList_eq_iff, api_data_map_fst]

theorem run_error_of_bad_line (stockTimesData : List (String × Price))
    (journalLines : List String) (sn cn : String) (sep : Char)
    (dd : Option Nat) (before : Bool) {l : String} (hl : l ∈ journalLines)
    (hcm : startsWithSemicolon (trimStart l) = false)
    (hbad : ∀ p, parseDirective (trimStart l) ≠ .ok p) :
    (∃ e, get_history_for_stock stockTimesData journalLines sn cn sep dd before =
      .error e) ∧
    ((stockTimesData.map Prod.fst).Nodup →
      ∃ je, get_history_for_stock stockTimesData journalLines sn cn sep dd before =
        .error (.journal je)) := by
  have hparse : ∃ e, parseJournalLines journalLines = .error e := by
    unfold parseJournalLines
    apply parseAller_error_of_bad (l := trimStart l) _ hbad
    apply List.mem_filter.mpr
    refine ⟨List.mem_map_of_mem trimStart hl, by simp [hcm]⟩
  rcases hparse with ⟨e, he⟩
  constructor
  · unfold get_history_for_stock
    by_cases hc : stockTimesData.length =
        (api_data stockTimesData sn cn sep dd before).length
    · rw [if_neg (by omega), he]
      exact ⟨.journal e, rfl⟩
    · rw [if_pos hc]
      exact ⟨_, rfl⟩
  · intro hnd
    have hlen : (api_data stockTimesData sn cn sep dd before).length =
        stockTimesData.length :=
      (api_data_length_eq_iff _ _ _ _ _ _).mpr hnd
    unfold get_history_for_stock
    rw [if_neg (by omega), he]
    exact ⟨e, rfl⟩

/-! ### Formatter lemmas -/

theorem map_subst_of_no_dot {l : List Char} (S : Char) (h : '.' ∉ l) :
    l.map (fun c => if c = '.' then S else c) = l := by
  induction l with
  | nil => rfl
  | cons c cs ih =>
    simp only [List.mem_cons, not_or] at h
    rw [List.map_cons, if_neg (fun hc => h.1 hc.symm), ih h.2]

theorem dot_not_mem_map_subst {l : List Char} {S : Char} (hS : S ≠ '.') :
    '.' ∉ l.map (fun c => if c = '.' then S else c) := by
  intro hmem
  rcases List.mem_map.mp hmem with ⟨c, _, hc⟩
  by_cases hcd : c = '.'
  · rw [if_pos hcd] at hc
    exact hS hc
  · rw [if_neg hcd] at hc
    exact hcd hc

theorem no_dot_of_digits {l : List Char}
    (h : ∀ c ∈ l, ∃ d, d < 10 ∧ c = digitChar d) : '.' ∉ l := by
  intro hmem
  rcases h '.' hmem with ⟨d, hd, hc⟩
  exact (digitChar_spec hd).2 hc.symm

theorem price_string_subst (p : Price) (dd : Option Nat) {S : Char}
    (hS : S ≠ '.') :
    price_string p dd S =
      (price_string p dd '.').map (fun c => if c = '.' then S else c) := by
  unfold price_string
  rw [if_pos hS, if_neg (by simp)]

theorem data_mk (l : List Char) : (String.mk l).data = l := rfl

theorem parsedPairs_append (A B : List String) :
    parsedPairs (A ++ B) = parsedPairs A ++ parsedPairs B := by
  unfold parsedPairs
  rw [List.map_append, List.filter_append, List.filterMap_append]

theorem parsedPairs_mkDirective_cons {d : String} (v : String)
    (rest : List String) (hd : ' ' ∉ d.data) :
    parsedPairs (mkDirective d v :: rest) = (d, v) :: parsedPairs rest := by
  unfold parsedPairs
  rw [List.map_cons, trimStart_mkDirective,
    List.filter_cons_of_pos (by rw [startsWithSemicolon_mkDirective]; rfl),
    List.filterMap_cons_some (by rw [parseDirective_mkDirective v hd]; rfl)]

theorem lineOkB_mkDirective {d : String} (v : String) (hd : ' ' ∉ d.data) :
    lineOkB (mkDirective d v) = true := by
  unfold lineOkB
  rw [trimStart_mkDirective, startsWithSemicolon_mkDirective,
    parseDirective_mkDirective v hd]
  rfl

theorem not_mem_append {α : Type} {a : α} {l₁ l₂ : List α}
    (h1 : a ∉ l₁) (h2 : a ∉ l₂) : a ∉ l₁ ++ l₂ := fun hmem =>
  (List.mem_append.mp hmem).elim (fun h => h1 h) (fun h => h2 h)

/-! ### Claim theorems -/

/-- Claim C9: the formatter composes its final output as
`"{stock_name} {currency_name}{price}"` when currency-symbol-before is true
and as `"{stock_name} {price} {currency_name}"` when it is false; in
particular price 123.4 with commodity names AAPL and USD, no fixed digit
count and separator `'.'` yields `"AAPL 123.4 USD"`, and with currency
symbol `$` placed before the amount yields `"AAPL $123.4"`. -/
theorem C9_formatter_composition (sn cn : String) (p : Price)
    (dd : Option Nat) (sep : Char) :
    formatEntryValue sn cn p dd sep true =
      sn ++ " " ++ cn ++ (⟨price_string p dd sep⟩ : String) ∧
    formatEntryValue sn cn p dd sep false =
      sn ++ " " ++ (⟨price_string p dd sep⟩ : String) ++ " " ++ cn ∧
    formatEntryValue "AAPL" "USD" ⟨1234, 1⟩ none '.' false = "AAPL 123.4 USD" ∧
    formatEntryValue "AAPL" "$" ⟨1234, 1⟩ none '.' true = "AAPL $123.4" :=
  ⟨rfl, rfl, rfl, rfl⟩

/-- Claim C5 counterexample: with separator `','` (which differs from
`'.'`) and stock commodity name `"BRK.B"`, the formatter's output still
contains a literal `'.'` — the one inside the commodity name — because the
separator substitution only applies to the rendered price string; this
refutes the claim as stated for arbitrary commodity names. -/
theorem C5_counterexample :
    (',' : Char) ≠ '.' ∧
    formatEntryValue "BRK.B" "USD" ⟨15, 1⟩ none ',' false = "BRK.B 1,5 USD" ∧
    '.' ∈ (formatEntryValue "BRK.B" "USD" ⟨15, 1⟩ none ',' false).data :=
  ⟨by decide, rfl, by decide⟩

/-- Claim C5 (amended): for every separator `S ≠ '.'` the substitution is
positionwise — the output with separator `S` is the output with separator
`'.'` with every `'.'` replaced by `S` and all other characters unchanged —
and the output contains no literal `'.'`, provided neither commodity name
contains a `'.'` (the substitution only applies to the rendered price
string, so a dot inside a commodity name survives). -/
theorem C5_separator_substitution (p : Price) (dd : Option Nat) (S : Char)
    (sn cn : String) (before : Bool) (hS : S ≠ '.')
    (hsn : '.' ∉ sn.data) (hcn : '.' ∉ cn.data) :
    (formatEntryValue sn cn p dd S before).data =
      (formatEntryValue sn cn p dd '.' before).data.map
        (fun c => if c = '.' then S else c) ∧
    '.' ∉ (formatEntryValue sn cn p dd S before).data := by
  have hps := price_string_subst p dd hS
  have hsp : '.' ∉ (" " : String).data := by decide
  have hpsno : '.' ∉ price_string p dd S := by
    rw [hps]
    exact dot_not_mem_map_subst hS
  constructor
  · cases before
    · show (sn ++ " " ++ (⟨price_string p dd S⟩ : String) ++ " " ++ cn).data =
        (sn ++ " " ++ (⟨price_string p dd '.'⟩ : String) ++ " " ++ cn).data.map _
      simp only [String.data_append, data_mk, List.map_append]
      rw [map_subst_of_no_dot S hsn, map_subst_of_no_dot S hcn,
        map_subst_of_no_dot S hsp, hps]
    · show (sn ++ " " ++ cn ++ (⟨price_string p dd S⟩ : String)).data =
        (sn ++ " " ++ cn ++ (⟨price_string p dd '.'⟩ : String)).data.map _
      simp only [String.data_append, data_mk, List.map_append]
      rw [map_subst_of_no_dot S hsn, map_subst_of_no_dot S hcn,
        map_subst_of_no_dot S hsp, hps]
  · cases before
    · show '.' ∉ (sn ++ " " ++ (⟨price_string p dd S⟩ : String) ++ " " ++ cn).data
      simp only [String.data_append, data_mk]
      exact not_mem_append
        (not_mem_append (not_mem_append (not_mem_append hsn hsp) hpsno) hsp) hcn
    · show '.' ∉ (sn ++ " " ++ cn ++ (⟨price_string p dd S⟩ : String)).data
      simp only [String.data_append, data_mk]
      exact not_mem_append (not_mem_append (not_mem_append hsn hsp) hcn) hpsno

/-- Witness for C5's amended theorem at a concrete input. -/
theorem C5_separator_substitution_witness :
    (formatEntryValue "AAPL" "USD" ⟨1234, 1⟩ none ',' false).data =
      (formatEntryValue "AAPL" "USD" ⟨1234, 1⟩ none '.' false).data.map
        (fun c => if c = '.' then ',' else c) ∧
    '.' ∉ (formatEntryValue "AAPL" "USD" ⟨1234, 1⟩ none ',' false).data :=
  C5_separator_substitution ⟨1234, 1⟩ none ',' "AAPL" "USD" false
    (by decide) (by decide) (by decide)

/-- Claim C2: merging inserts every fetched entry into the file's mapping,
so for a date key present in the fetched mapping the merged value is the
fetched (formatted) value, and for a date key present only in the file's
mapping the merged value is the file's value unchanged. -/
theorem C2_merge_overwrite (filePairs : List (String × String))
    (stockTimesData : List (String × Price)) (sn cn : String) (sep : Char)
    (dd : Option Nat) (before : Bool) (d : String) :
    (d ∈ hmKeys (api_data stockTimesData sn cn sep dd before) →
      hmLookup (hmExtend (hmOfList filePairs)
          (api_data stockTimesData sn cn sep dd before)) d =
        hmLookup (api_data stockTimesData sn cn sep dd before) d) ∧
    (d ∈ hmKeys (hmOfList filePairs) →
      d ∉ hmKeys (api_data stockTimesData sn cn sep dd before) →
      hmLookup (hmExtend (hmOfList filePairs)
          (api_data stockTimesData sn cn sep dd before)) d =
        hmLookup (hmOfList filePairs) d) := by
  constructor
  · intro hd
    exact hmLookup_hmExtend_of_nodup
      (nodup_hmKeys_hmOfList _) hd
  · intro _ hd
    exact hmLookup_hmExtend_of_not_mem hd

/-- Witness for C2 at a concrete input: date 2024-01-03 is in both maps and
gets the fetched value, date 2024-01-02 is only in the file map and keeps
the file value. -/
theorem C2_merge_overwrite_witness :
    (hmLookup (hmExtend (hmOfList [("2024-01-02", "AAPL 100 USD"), ("2024-01-03", "AAPL 999 USD")])
        (api_data [("2024-01-03", ⟨101, 0⟩)] "AAPL" "USD" '.' none false)) "2024-01-03" =
      hmLookup (api_data [("2024-01-03", ⟨101, 0⟩)] "AAPL" "USD" '.' none false) "2024-01-03") ∧
    (hmLookup (hmExtend (hmOfList [("2024-01-02", "AAPL 100 USD"), ("2024-01-03", "AAPL 999 USD")])
        (api_data [("2024-01-03", ⟨101, 0⟩)] "AAPL" "USD" '.' none false)) "2024-01-02" =
      hmLookup (hmOfList [("2024-01-02", "AAPL 100 USD"), ("2024-01-03", "AAPL 999 USD")]) "2024-01-02") :=
  ⟨(C2_merge_overwrite [("2024-01-02", "AAPL 100 USD"), ("2024-01-03", "AAPL 999 USD")]
      [("2024-01-03", ⟨101, 0⟩)] "AAPL" "USD" '.' none false "2024-01-03").1 (by decide),
   (C2_merge_overwrite [("2024-01-02", "AAPL 100 USD"), ("2024-01-03", "AAPL 999 USD")]
      [("2024-01-03", ⟨101, 0⟩)] "AAPL" "USD" '.' none false "2024-01-02").2 (by decide) (by decide)⟩

/-- Claim C7: merging a file mapping and a fetched mapping with disjoint
date-key sets yields a mapping whose entry count is the sum of the two
input entry counts. -/
theorem C7_disjoint_merge_count (fileMap apiMap : HMap)
    (hfile : (hmKeys fileMap).Nodup) (hapi : (hmKeys apiMap).Nodup)
    (hdisj : ∀ k ∈ hmKeys apiMap, k ∉ hmKeys fileMap) :
    (hmExtend fileMap apiMap).length = fileMap.length + apiMap.length :=
  length_hmExtend_of_disjoint hfile hapi hdisj

/-- Witness for C7 at a concrete input. -/
theorem C7_disjoint_merge_count_witness :
    (hmExtend [("2024-01-02", "AAPL 100 USD")] [("2024-01-03", "AAPL 101 USD")]).length =
      ([("2024-01-02", "AAPL 100 USD")] : HMap).length +
        ([("2024-01-03", "AAPL 101 USD")] : HMap).length :=
  C7_disjoint_merge_count [("2024-01-02", "AAPL 100 USD")]
    [("2024-01-03", "AAPL 101 USD")] (by decide) (by decide) (by decide)

/-- Claim C8: the ledger reader raises no error on a file whose lines are
all well formed even when two price directives carry the same date, and the
mapping it produces holds the price info of the directive that appears
later in the file, silently discarding the earlier one. -/
theorem C8_reader_later_directive_wins (pre mid post : List String)
    (d v₁ v₂ : String)
    (hok : ∀ l ∈ pre ++ mid ++ post, lineOkB l = true)
    (hd : ' ' ∉ d.data)
    (hpost : d ∉ (parsedPairs post).map Prod.fst) :
    ∃ pairs,
      parseJournalLines
          (pre ++ mkDirective d v₁ :: mid ++ mkDirective d v₂ :: post) =
        .ok pairs ∧
      hmLookup (hmOfList pairs) d = some v₂ := by
  have hall : ∀ l ∈ pre ++ mkDirective d v₁ :: mid ++ mkDirective d v₂ :: post,
      lineOkB l = true := by
    intro l hl
    simp only [List.mem_append, List.mem_cons] at hl
    rcases hl with (h | h | h) | h | h
    · exact hok l (by simp [h])
    · rw [h]
      exact lineOkB_mkDirective v₁ hd
    · exact hok l (by simp [h])
    · rw [h]
      exact lineOkB_mkDirective v₂ hd
    · exact hok l (by simp [h])
  refine ⟨_, parseJournalLines_of_all_ok hall, ?_⟩
  have hsplit : parsedPairs
      (pre ++ mkDirective d v₁ :: mid ++ mkDirective d v₂ :: post) =
      (parsedPairs pre ++ (d, v₁) :: parsedPairs mid) ++
        (d, v₂) :: parsedPairs post := by
    rw [parsedPairs_append, parsedPairs_append,
      parsedPairs_mkDirective_cons v₁ _ hd, parsedPairs_mkDirective_cons v₂ _ hd]
  rw [hsplit]
  exact hmLookup_hmExtend_last hpost

/-- Witness for C8 at a concrete input. -/
theorem C8_reader_later_directive_wins_witness :
    ∃ pairs,
      parseJournalLines ([";c"] ++ mkDirective "2024-01-05" "AAPL 1 USD" :: [] ++
        mkDirective "2024-01-05" "AAPL 2 USD" :: ["P 2024-01-01 AAPL 3 USD"]) =
        .ok pairs ∧
      hmLookup (hmOfList pairs) "2024-01-05" = some "AAPL 2 USD" :=
  C8_reader_later_directive_wins [";c"] [] ["P 2024-01-01 AAPL 3 USD"]
    "2024-01-05" "AAPL 1 USD" "AAPL 2 USD" (by decide) (by decide) (by decide)

/-- Claim C4: the history run fails with the duplicate-days
internal-consistency error exactly when the fetched pair count differs from
the fetched mapping's entry count, which happens exactly when two fetched
pairs share a date; otherwise execution continues past the check. -/
theorem C4_duplicate_days_check (stockTimesData : List (String × Price))
    (journalLines : List String) (sn cn : String) (sep : Char)
    (dd : Option Nat) (before : Bool) :
    ((∃ a b, get_history_for_stock stockTimesData journalLines sn cn sep dd before =
        .error (.duplicateDays a b)) ↔
      stockTimesData.length ≠
        (api_data stockTimesData sn cn sep dd before).length) ∧
    (stockTimesData.length ≠ (api_data stockTimesData sn cn sep dd before).length ↔
      ¬(stockTimesData.map Prod.fst).Nodup) := by
  constructor
  · constructor
    · rintro ⟨a, b, hab⟩
      by_contra hc
      simp only [get_history_for_stock] at hab
      rw [if_neg (by omega)] at hab
      rcases hp : parseJournalLines journalLines with e | filePairs
      · rw [hp] at hab
        simp at hab
      · rw [hp] at hab
        simp at hab
    · intro hne
      refine ⟨stockTimesData.length,
        (api_data stockTimesData sn cn sep dd before).length, ?_⟩
      simp only [get_history_for_stock]
      rw [if_pos hne]
  · rw [ne_comm]
    exact not_congr (api_data_length_eq_iff stockTimesData sn cn sep dd before)

/-- Claim C6: with a fixed decimal-digit count `D`, the rendered price
string consists of digits only when `D = 0`, and otherwise decomposes as
integer digits, the separator character, and exactly `D` fractional
digits. -/
theorem C6_fixed_digit_count (p : Price) (D : Nat) (S : Char) :
    (D = 0 → ∀ c ∈ price_string p (some D) S, ∃ d, d < 10 ∧ c = digitChar d) ∧
    (0 < D → ∃ a b : List Char,
      price_string p (some D) S = a ++ S :: b ∧ b.length = D ∧
      (∀ c ∈ a, ∃ d, d < 10 ∧ c = digitChar d) ∧
      (∀ c ∈ b, ∃ d, d < 10 ∧ c = digitChar d)) := by
  constructor
  · rintro rfl
    have hdig : ∀ c ∈ natToChars (roundToScale p.mantissa p.scale 0),
        ∃ d, d < 10 ∧ c = digitChar d := fun c hc => natToChars_mem hc
    have hps : price_string p (some 0) S =
        natToChars (roundToScale p.mantissa p.scale 0) := by
      simp only [price_string, format_fixed, if_pos]
      by_cases hS : S ≠ '.'
      · rw [if_pos hS, map_subst_of_no_dot S (no_dot_of_digits hdig)]
      · rw [if_neg hS]
    rw [hps]
    exact hdig
  · intro hD
    refine ⟨natToChars (roundToScale p.mantissa p.scale D / 10 ^ D),
      lastDigits (roundToScale p.mantissa p.scale D) D, ?_, lastDigits_length _ _,
      fun c hc => natToChars_mem hc, fun c hc => lastDigits_mem hc⟩
    have hren : format_fixed p D =
        natToChars (roundToScale p.mantissa p.scale D / 10 ^ D) ++
          '.' :: lastDigits (roundToScale p.mantissa p.scale D) D := by
      unfold format_fixed
      rw [if_neg (by omega)]
    by_cases hS : S ≠ '.'
    · show price_string p (some D) S = _
      simp only [price_string, hren]
      rw [if_pos hS, List.map_append, List.map_cons, if_pos rfl,
        map_subst_of_no_dot S (no_dot_of_digits (fun c hc => natToChars_mem hc)),
        map_subst_of_no_dot S (no_dot_of_digits (fun c hc => lastDigits_mem hc))]
    · have hSd : S = '.' := not_ne_iff.mp hS
      subst hSd
      simp only [price_string, hren]
      rw [if_neg hS]

/-- Witness for C6 at a concrete input. -/
theorem C6_fixed_digit_count_witness :
    ∃ a b : List Char,
      price_string ⟨1234, 1⟩ (some 2) ',' = a ++ ',' :: b ∧ b.length = 2 ∧
      (∀ c ∈ a, ∃ d, d < 10 ∧ c = digitChar d) ∧
      (∀ c ∈ b, ∃ d, d < 10 ∧ c = digitChar d) :=
  (C6_fixed_digit_count ⟨1234, 1⟩ 2 ',').2 (by decide)

/-- Claim C3: a journal file containing a non-comment line with no space
after trimming leading whitespace makes the history run terminate with a
fatal error before the file is reopened for writing — a journal parse
error whenever the fetched data passes the earlier duplicate-date check
(on a duplicated API response the run aborts even earlier, also before any
write). -/
theorem C3_malformed_line_fatal (stockTimesData : List (String × Price))
    (journalLines : List String) (sn cn : String) (sep : Char)
    (dd : Option Nat) (before : Bool) (l : String) (hl : l ∈ journalLines)
    (hcm : startsWithSemicolon (trimStart l) = false)
    (hns : ' ' ∉ (trimStart l).data) :
    (∃ e, get_history_for_stock stockTimesData journalLines sn cn sep dd before =
      .error e) ∧
    ((stockTimesData.map Prod.fst).Nodup →
      ∃ je, get_history_for_stock stockTimesData journalLines sn cn sep dd before =
        .error (.journal je)) := by
  apply run_error_of_bad_line stockTimesData journalLines sn cn sep dd before hl hcm
  intro p hp
  unfold parseDirective at hp
  rw [splitOnce_eq_none_iff.mpr hns] at hp
  simp at hp

/-- Witness for C3 at a concrete input. -/
theorem C3_malformed_line_fatal_witness :
    (∃ e, get_history_for_stock [] ["GARBAGE"] "AAPL" "USD" '.' none false =
      .error e) ∧
    ((([] : List (String × Price)).map Prod.fst).Nodup →
      ∃ je, get_history_for_stock [] ["GARBAGE"] "AAPL" "USD" '.' none false =
        .error (.journal je)) :=
  C3_malformed_line_fatal [] ["GARBAGE"] "AAPL" "USD" '.' none false "GARBAGE"
    (by decide) (by decide) (by decide)

/-- Claim C10: a journal line that is empty or consists only of whitespace
trims to the empty string, is not a comment, fails the first split with a
no-space parse error rather than being skipped, and makes the history run
terminate fatally (with a journal parse error whenever the fetched data
passes the duplicate-date check). -/
theorem C10_blank_line_fatal (stockTimesData : List (String × Price))
    (journalLines : List String) (sn cn : String) (sep : Char)
    (dd : Option Nat) (before : Bool) (l : String) (hl : l ∈ journalLines)
    (hws : ∀ c ∈ l.data, c.isWhitespace = true) :
    trimStart l = "" ∧
    parseDirective (trimStart l) = .error (.noSpace "") ∧
    (∃ e, get_history_for_stock stockTimesData journalLines sn cn sep dd before =
      .error e) ∧
    ((stockTimesData.map Prod.fst).Nodup →
      ∃ je, get_history_for_stock stockTimesData journalLines sn cn sep dd before =
        .error (.journal je)) := by
  have ht : trimStart l = "" := trimStart_eq_empty hws
  have hcm : startsWithSemicolon (trimStart l) = false := by
    rw [ht]
    rfl
  have hpd : parseDirective (trimStart l) = .error (.noSpace "") := by
    rw [ht]
    rfl
  have hrun := run_error_of_bad_line stockTimesData journalLines sn cn sep dd before
    hl hcm (fun p hp => by
      rw [hpd] at hp
      exact absurd hp (by simp))
  exact ⟨ht, hpd, hrun.1, hrun.2⟩

/-- Witness for C10 at a concrete input: a file consisting of one empty
line. -/
theorem C10_blank_line_fatal_witness :
    trimStart "" = "" ∧
    parseDirective (trimStart "") = .error (.noSpace "") ∧
    (∃ e, get_history_for_stock [] [""] "AAPL" "USD" '.' none false = .error e) ∧
    ((([] : List (String × Price)).map Prod.fst).Nodup →
      ∃ je, get_history_for_stock [] [""] "AAPL" "USD" '.' none false =
        .error (.journal je)) :=
  C10_blank_line_fatal [] [""] "AAPL" "USD" '.' none false "" (by decide) (by decide)

/-- Claim C1: every successful history run writes the generated-by comment
header first, then exactly one `P <date> <value>` directive line per
distinct date in the union of the dates parsed from the existing file and
the dates fetched from the API, with the dates strictly descending in
lexicographic order and no duplicates. -/
theorem C1_output_invariant (stockTimesData : List (String × Price))
    (journalLines : List String) (sn cn : String) (sep : Char)
    (dd : Option Nat) (before : Bool) (out : List String)
    (h : get_history_for_stock stockTimesData journalLines sn cn sep dd before =
      .ok out) :
    ∃ (filePairs : List (String × String)) (entries : List (String × String)),
      parseJournalLines journalLines = .ok filePairs ∧
      out = headerLine :: entries.map (fun kv => mkDirective kv.1 kv.2) ∧
      startsWithSemicolon headerLine = true ∧
      (∀ line ∈ entries.map (fun kv => mkDirective kv.1 kv.2),
        startsWithSemicolon line = false) ∧
      (∀ d : String, d ∈ entries.map Prod.fst ↔
        d ∈ filePairs.map Prod.fst ∨ d ∈ stockTimesData.map Prod.fst) ∧
      (entries.map Prod.fst).Pairwise
        (fun d₁ d₂ => charsLt d₂.data d₁.data = true) ∧
      (entries.map Prod.fst).Nodup := by
  simp only [get_history_for_stock] at h
  by_cases hlen : stockTimesData.length =
      (api_data stockTimesData sn cn sep dd before).length
  · rw [if_neg (by omega)] at h
    rcases hp : parseJournalLines journalLines with e | filePairs
    · rw [hp] at h
      simp at h
    · rw [hp] at h
      simp only [Except.ok.injEq] at h
      have hperm : ((hmExtend (hmOfList filePairs)
          (api_data stockTimesData sn cn sep dd before)).insertionSort keyGe).Perm
            (hmExtend (hmOfList filePairs)
              (api_data stockTimesData sn cn sep dd before)) :=
        List.perm_insertionSort keyGe _
      have hpermmap := hperm.map Prod.fst
      have hnodup : (((hmExtend (hmOfList filePairs)
          (api_data stockTimesData sn cn sep dd before)).insertionSort
            keyGe).map Prod.fst).Nodup :=
        hpermmap.symm.nodup
          (nodup_hmKeys_hmExtend (nodup_hmKeys_hmOfList filePairs))
      refine ⟨filePairs,
        (hmExtend (hmOfList filePairs)
          (api_data stockTimesData sn cn sep dd before)).insertionSort keyGe,
        rfl, h.symm, rfl, ?_, ?_, ?_, hnodup⟩
      · intro line hline
        rcases List.mem_map.mp hline with ⟨kv, _, rfl⟩
        exact startsWithSemicolon_mkDirective kv.1 kv.2
      · intro d
        exact Iff.trans hpermmap.mem_iff
          (Iff.trans mem_hmKeys_hmExtend
            (or_congr mem_hmKeys_hmOfList mem_hmKeys_api_data))
      · have hsorted := insertionSort_sorted_keyGe
          (hmExtend (hmOfList filePairs)
            (api_data stockTimesData sn cn sep dd before))
        have hne : ((hmExtend (hmOfList filePairs)
            (api_data stockTimesData sn cn sep dd before)).insertionSort
              keyGe).Pairwise (fun x y : String × String => x.1 ≠ y.1) :=
          List.pairwise_map.mp hnodup
        apply List.pairwise_map.mpr
        exact (hsorted.and hne).imp (fun hab =>
          charsLt_of_le_of_ne _ _ hab.1
            (fun hdata => hab.2 (string_ext hdata).symm))
  · rw [if_pos hlen] at h
    simp at h

/-- Witness for C1 at a concrete successful run. -/
theorem C1_output_invariant_witness :
    ∃ (filePairs : List (String × String)) (entries : List (String × String)),
      parseJournalLines ["P 2024-01-02 AAPL 100 USD"] = .ok filePairs ∧
      ["; Generated by hledger-get-market-prices V0.1.0",
          "P 2024-01-03 AAPL 101 USD", "P 2024-01-02 AAPL 100 USD"] =
        headerLine :: entries.map (fun kv => mkDirective kv.1 kv.2) ∧
      startsWithSemicolon headerLine = true ∧
      (∀ line ∈ entries.map (fun kv => mkDirective kv.1 kv.2),
        startsWithSemicolon line = false) ∧
      (∀ d : String, d ∈ entries.map Prod.fst ↔
        d ∈ filePairs.map Prod.fst ∨
          d ∈ ([("2024-01-03", (⟨101, 0⟩ : Price))]).map Prod.fst) ∧
      (entries.map Prod.fst).Pairwise
        (fun d₁ d₂ => charsLt d₂.data d₁.data = true) ∧
      (entries.map Prod.fst).Nodup :=
  C1_output_invariant [("2024-01-03", ⟨101, 0⟩)] ["P 2024-01-02 AAPL 100 USD"]
    "AAPL" "USD" '.' none false
    ["; Generated by hledger-get-market-prices V0.1.0",
      "P 2024-01-03 AAPL 101 USD", "P 2024-01-02 AAPL 100 USD"] rfl

end HledgerGetMarketPrices
